import Mathlib

/-!
# Verification of the legal-domain RAG pipeline

Shallow embedding of the retrieval-augmented-generation pipeline of the
legal-domain RAG repository, together with proofs of the behavioural
properties stated in its specification.

The embedded pieces are:

* `query_documents` — the ChromaDB retrieval routine shown in
  `docs/user-guide/chromadbGuide.md` (candidate fetch, similarity
  normalisation, threshold filtering, stable descending sort, top-k cut);
* the two frontend citation renderers, `QueryPage.renderResponseWithCitations`
  (`frontend/src/pages/Query.tsx`) and
  `ResponseDisplay.renderResponseWithCitations` (the ResponseDisplay
  component), including a faithful model of the JavaScript regex matching
  they perform;
* the CitationResolver, Chunker and IngestionOrchestrator, which are
  described by the specification (their backend implementation files are
  not part of the sources at hand) and are modelled from the spec text.

Similarity scores, distances and thresholds are modelled as rationals `ℚ`;
all arithmetic the pipeline performs on them (`1 - d/2`, averaging) is
exact on the values involved.
-/

namespace RagPipeline

/-! ## Retrieval: `query_documents` from `docs/user-guide/chromadbGuide.md`

The guide's Python code iterates the first query's parallel arrays
(`ids`, `metadatas`, `documents` and, when the key is present,
`distances`), computes `similarity_score = 1.0 - distance / 2.0` with a
default distance of `0.5` when the result dict has no `"distances"` key,
keeps rows with `similarity_score >= threshold`, sorts the kept rows by
score descending (Python `list.sort` is stable, so rows with equal score
keep their backend order) and returns the first `top_k`. -/

/-- One candidate row of a ChromaDB query result: the parallel entries of
`results["ids"][0]`, `results["metadatas"][0]` and `results["documents"][0]`
at one index. -/
structure QueryRow where
  chunk_id : String
  document_id : String
  document_title : String
  text : String
deriving DecidableEq

/-- The backend reply used by `query_documents`: the rows of the first
query, and the `"distances"` array when that key is present (`none` models
a reply without a `"distances"` key). -/
structure ChromaResults where
  rows : List QueryRow
  distances : Option (List ℚ)
deriving DecidableEq

/-- One formatted chunk dict appended by `query_documents`
(`chunk_id`, `document_id`, `document_title`, `text`, `score`). -/
structure RChunk where
  chunk_id : String
  document_id : String
  document_title : String
  text : String
  score : ℚ
deriving DecidableEq

/-- `similarity_score = 1.0 - (distance / 2.0)` — the normalisation applied
to each raw backend distance. The code applies no further clamping. -/
def similarity_score (d : ℚ) : ℚ := 1 - d / 2

/-- Each row paired with its distance:
`results["distances"][0][i] if "distances" in results else 0.5`. -/
def candidateRows (res : ChromaResults) : List (QueryRow × ℚ) :=
  match res.distances with
  | some ds => res.rows.zip ds
  | none => res.rows.map (fun r => (r, 1/2))

/-- The loop body of `query_documents`: keep a row iff
`similarity_score >= threshold`, formatting it as a chunk dict. -/
def thresholdFiltered (res : ChromaResults) (threshold : ℚ) : List RChunk :=
  (candidateRows res).filterMap (fun rd =>
    if threshold ≤ similarity_score rd.2 then
      some ⟨rd.1.chunk_id, rd.1.document_id, rd.1.document_title, rd.1.text,
            similarity_score rd.2⟩
    else none)

/-- Stable insertion step for sorting by score descending: `x` is placed
before the first element whose score is `≤ x.score`, so among equal scores
the earlier-inserted (later-listed) element stays behind. -/
def insertByScoreDesc (x : RChunk) : List RChunk → List RChunk
  | [] => [x]
  | y :: ys => if y.score ≤ x.score then x :: y :: ys else y :: insertByScoreDesc x ys

/-- Stable sort by score descending, modelling Python's stable
`chunks.sort(key=lambda x: x["score"], reverse=True)`. -/
def sortByScoreDesc : List RChunk → List RChunk
  | [] => []
  | x :: xs => insertByScoreDesc x (sortByScoreDesc xs)

/-- `query_documents` after the backend reply is in hand: filter by
threshold, sort by score descending (stable), return `chunks[:top_k]`. -/
def query_documents (res : ChromaResults) (top_k : ℕ) (threshold : ℚ) : List RChunk :=
  (sortByScoreDesc (thresholdFiltered res threshold)).take top_k

/-- The full retrieval call: the collection is queried with
`n_results=top_k * 2` ("Get more results than needed for post-filtering"),
then post-processed by `query_documents`. `backend n` stands for
`collection.query(..., n_results=n, ...)`. -/
def retrieve (backend : ℕ → ChromaResults) (top_k : ℕ) (threshold : ℚ) : List RChunk :=
  query_documents (backend (top_k * 2)) top_k threshold

theorem mem_insertByScoreDesc {z x : RChunk} {l : List RChunk} :
    z ∈ insertByScoreDesc x l ↔ z = x ∨ z ∈ l := by
  induction l with
  | nil => simp [insertByScoreDesc]
  | cons y ys ih =>
    by_cases hc : y.score ≤ x.score
    · simp [insertByScoreDesc, hc]
    · simp [insertByScoreDesc, hc, ih]
      tauto

theorem mem_sortByScoreDesc {z : RChunk} {l : List RChunk} :
    z ∈ sortByScoreDesc l ↔ z ∈ l := by
  induction l with
  | nil => simp [sortByScoreDesc]
  | cons x xs ih =>
    simp [sortByScoreDesc, mem_insertByScoreDesc, ih]

theorem pairwise_insertByScoreDesc {x : RChunk} {l : List RChunk}
    (h : l.Pairwise (fun a b => b.score ≤ a.score)) :
    (insertByScoreDesc x l).Pairwise (fun a b => b.score ≤ a.score) := by
  induction l with
  | nil => simp [insertByScoreDesc]
  | cons y ys ih =>
    rw [List.pairwise_cons] at h
    obtain ⟨hy, hys⟩ := h
    by_cases hc : y.score ≤ x.score
    · simp only [insertByScoreDesc, if_pos hc]
      rw [List.pairwise_cons]
      refine ⟨?_, ?_⟩
      · intro z hz
        rcases List.mem_cons.mp hz with rfl | hz
        · exact hc
        · exact le_trans (hy z hz) hc
      · rw [List.pairwise_cons]
        exact ⟨hy, hys⟩
    · simp only [insertByScoreDesc, if_neg hc]
      rw [List.pairwise_cons]
      refine ⟨?_, ih hys⟩
      intro z hz
      rcases mem_insertByScoreDesc.mp hz with rfl | hz
      · exact le_of_lt (lt_of_not_le hc)
      · exact hy z hz

theorem pairwise_sortByScoreDesc (l : List RChunk) :
    (sortByScoreDesc l).Pairwise (fun a b => b.score ≤ a.score) := by
  induction l with
  | nil => simp [sortByScoreDesc]
  | cons x xs ih => exact pairwise_insertByScoreDesc ih

/-- Stability of the insertion step, phrased through score-level filters:
inserting `x` does not disturb the relative order of the elements at any
fixed score value. -/
theorem scoreFilter_insertByScoreDesc (x : RChunk) (l : List RChunk) (s : ℚ) :
    (insertByScoreDesc x l).filter (fun c => decide (c.score = s)) =
      (x :: l).filter (fun c => decide (c.score = s)) := by
  induction l with
  | nil => rfl
  | cons y ys ih =>
    by_cases hc : y.score ≤ x.score
    · simp only [insertByScoreDesc, if_pos hc]
    · simp only [insertByScoreDesc, if_neg hc]
      by_cases hy : y.score = s
      · have hx : ¬ x.score = s := by
          intro hx
          exact hc (le_of_eq (hy.trans hx.symm))
        simp [List.filter_cons, hy, hx, ih]
      · simp [List.filter_cons, hy, ih]

/-- Stability of the whole sort: at every score value `s`, the sorted list
restricted to score `s` is the input list restricted to score `s`, i.e.
equal-score entries keep their first-seen order. -/
theorem scoreFilter_sortByScoreDesc (l : List RChunk) (s : ℚ) :
    (sortByScoreDesc l).filter (fun c => decide (c.score = s)) =
      l.filter (fun c => decide (c.score = s)) := by
  induction l with
  | nil => rfl
  | cons x xs ih =>
    calc (insertByScoreDesc x (sortByScoreDesc xs)).filter (fun c => decide (c.score = s))
        = (x :: sortByScoreDesc xs).filter (fun c => decide (c.score = s)) :=
          scoreFilter_insertByScoreDesc ..
      _ = (x :: xs).filter (fun c => decide (c.score = s)) := by
          by_cases hx : x.score = s
          · simp [List.filter_cons, hx, ih]
          · simp [List.filter_cons, hx, ih]

theorem score_ge_threshold_of_mem_thresholdFiltered {res : ChromaResults}
    {threshold : ℚ} {c : RChunk} (h : c ∈ thresholdFiltered res threshold) :
    threshold ≤ c.score := by
  unfold thresholdFiltered at h
  rw [List.mem_filterMap] at h
  obtain ⟨rd, _, hrd⟩ := h
  by_cases hle : threshold ≤ similarity_score rd.2
  · rw [if_pos hle] at hrd
    cases hrd
    exact hle
  · rw [if_neg hle] at hrd
    cases hrd

/-! ## Frontend citation rendering

Two renderers appear in the frontend sources.

`ResponseDisplay.renderResponseWithCitations` splits the answer on the
separator regex `(\[[^\]]*\d+[^\]]*\])` and then, for a part that matches
`\[(?:[^\]]*)?(\d+)(?:[^\]]*)?]`, computes
`citationIndex = parseInt(match[1]) - 1`; when
`citationIndex >= 0 && citationIndex < citations.length` the part becomes a
clickable span expanding `citations[citationIndex]`, otherwise the part is
rendered as plain text.

A matched token is `[`, then a run of non-`]` characters containing at
least one decimal digit, then the first following `]`. In the capture
regex the prefix `[^\]]*` is greedy, so the engine backtracks from the end
of the content: the first backtrack position at which `(\d+)` can start is
the last digit character of the content, and since no digit follows it the
captured group is exactly that final digit character. `parseInt` of it is
its digit value.

`QueryPage.renderResponseWithCitations` (Query.tsx) instead replaces
matches of the strict pattern `\[(\d+)\]` — `[` immediately followed by a
digit run and `]`. Its captured group is the whole digit run; the marker
is replaced by a clickable span carrying `citations[index].chunk_id` when
`index = parseInt(captured) - 1` is in range, and is left unchanged
otherwise. -/

/-- A citation object as the frontend receives it
(fields used by the renderers: `chunk_id`; list length drives the
range check). -/
structure FCitation where
  chunk_id : String
  document_title : String
  text : String
deriving DecidableEq

/-- Leftmost match of the loose token regex `\[[^\]]*\d+[^\]]*\]`:
returns `(before, mid, after)` with the matched token being
`'[' :: mid ++ [']']`. Scanning tries each position left to right, as the
JavaScript engine does. -/
def findToken : List Char → Option (List Char × List Char × List Char)
  | [] => none
  | c :: rest =>
    if c = '[' ∧ (rest.dropWhile (· ≠ ']')) ≠ [] ∧
        (rest.takeWhile (· ≠ ']')).any Char.isDigit then
      some ([], rest.takeWhile (· ≠ ']'), (rest.dropWhile (· ≠ ']')).tail)
    else
      match findToken rest with
      | some (b, m, a) => some (c :: b, m, a)
      | none => none

/-- The integer captured by `\[(?:[^\]]*)?(\d+)(?:[^\]]*)?]` on a token
with content `mid`: the digit value of the last digit character of `mid`
(see the section comment for the backtracking argument). -/
def capturedInt (mid : List Char) : Option ℕ :=
  match mid.reverse.find? Char.isDigit with
  | some c => some (c.toNat - 48)
  | none => none

/-- The source text of a matched token with content `mid`. -/
def tokenText (mid : List Char) : List Char := '[' :: (mid ++ [']'])

/-- A rendered piece of the ResponseDisplay answer: either plain text or a
clickable span showing its token text whose click expands
`citations[citationIndex]`. -/
inductive RSeg
  | lit (s : List Char)
  | cite (citationIndex : ℕ) (s : List Char)
deriving DecidableEq

/-- The displayed text of a rendered segment. -/
def RSeg.text : RSeg → List Char
  | .lit s => s
  | .cite _ s => s

/-- How ResponseDisplay renders one matched token: resolve the captured
integer, subtract 1, and keep the token clickable only when the resulting
index is inside the citation list. -/
def renderTokenRD (citations : List FCitation) (mid : List Char) : RSeg :=
  match capturedInt mid with
  | none => RSeg.lit (tokenText mid)
  | some v =>
    let citationIndex : ℤ := (v : ℤ) - 1
    if 0 ≤ citationIndex ∧ citationIndex < citations.length then
      RSeg.cite citationIndex.toNat (tokenText mid)
    else
      RSeg.lit (tokenText mid)

theorem dropWhile_ne_stop (l : List Char) (h : l.dropWhile (· ≠ ']') ≠ []) :
    l.dropWhile (· ≠ ']') = ']' :: (l.dropWhile (· ≠ ']')).tail := by
  induction l with
  | nil => simp at h
  | cons c rest ih =>
    by_cases hc : c = ']'
    · subst hc
      simp [List.dropWhile_cons]
    · rw [List.dropWhile_cons, if_pos (by simp [hc])] at h ⊢
      exact ih h

theorem findToken_decomp :
    ∀ {t b m a : List Char}, findToken t = some (b, m, a) →
      t = b ++ '[' :: (m ++ ']' :: a) := by
  intro t
  induction t with
  | nil => intro b m a h; simp [findToken] at h
  | cons c rest ih =>
    intro b m a h
    rw [findToken] at h
    by_cases hc : c = '[' ∧ (rest.dropWhile (· ≠ ']')) ≠ [] ∧
        (rest.takeWhile (· ≠ ']')).any Char.isDigit
    · rw [if_pos hc] at h
      obtain ⟨rfl, rfl, rfl⟩ : b = [] ∧ m = rest.takeWhile (· ≠ ']') ∧
          a = (rest.dropWhile (· ≠ ']')).tail := by
        cases h; exact ⟨rfl, rfl, rfl⟩
      obtain ⟨hc1, hc2, _⟩ := hc
      subst hc1
      have hsplit := List.takeWhile_append_dropWhile (p := (· ≠ ']')) (l := rest)
      rw [dropWhile_ne_stop rest hc2] at hsplit
      simpa using hsplit.symm
    · rw [if_neg hc] at h
      rcases hr : findToken rest with _ | ⟨⟨b', m', a'⟩⟩
      · rw [hr] at h; cases h
      · rw [hr] at h
        cases h
        simpa using congrArg (c :: ·) (ih hr)

theorem findToken_after_length {t b m a : List Char}
    (h : findToken t = some (b, m, a)) : a.length < t.length := by
  have := findToken_decomp h
  subst this
  simp
  omega

theorem findToken_any_digit :
    ∀ {t b m a : List Char}, findToken t = some (b, m, a) →
      m.any Char.isDigit := by
  intro t
  induction t with
  | nil => intro b m a h; simp [findToken] at h
  | cons c rest ih =>
    intro b m a h
    rw [findToken] at h
    by_cases hc : c = '[' ∧ (rest.dropWhile (· ≠ ']')) ≠ [] ∧
        (rest.takeWhile (· ≠ ']')).any Char.isDigit
    · rw [if_pos hc] at h
      cases h
      exact hc.2.2
    · rw [if_neg hc] at h
      rcases hr : findToken rest with _ | ⟨⟨b', m', a'⟩⟩
      · rw [hr] at h; cases h
      · rw [hr] at h
        cases h
        exact ih hr

/-- `ResponseDisplay.renderResponseWithCitations`: split the text at the
loose citation tokens and render each token through `renderTokenRD`,
everything else as plain text. -/
def renderResponseWithCitationsRD (citations : List FCitation)
    (t : List Char) : List RSeg :=
  match h : findToken t with
  | none => [RSeg.lit t]
  | some (b, m, a) =>
    RSeg.lit b :: renderTokenRD citations m ::
      renderResponseWithCitationsRD citations a
termination_by t.length
decreasing_by exact findToken_after_length h

theorem renderRD_of_none {citations : List FCitation} {t : List Char}
    (h : findToken t = none) :
    renderResponseWithCitationsRD citations t = [RSeg.lit t] := by
  rw [renderResponseWithCitationsRD, h]

theorem renderRD_of_some {citations : List FCitation} {t b m a : List Char}
    (h : findToken t = some (b, m, a)) :
    renderResponseWithCitationsRD citations t =
      RSeg.lit b :: renderTokenRD citations m ::
        renderResponseWithCitationsRD citations a := by
  rw [renderResponseWithCitationsRD, h]

/-- Decimal value of a digit run, as `parseInt` reads the capture of
`\[(\d+)\]`. -/
def digitsToNat (ds : List Char) : ℕ :=
  ds.foldl (fun n c => 10 * n + (c.toNat - 48)) 0

/-- A rendered piece of the Query.tsx answer string: plain text, or the
span `<span class="citation" data-citation-id=chunk_id>` wrapping the
marker text. -/
inductive QSeg
  | lit (s : List Char)
  | cite (citationIndex : ℕ) (chunk_id : String) (s : List Char)
deriving DecidableEq

/-- The displayed text of a Query.tsx segment. -/
def QSeg.text : QSeg → List Char
  | .lit s => s
  | .cite _ _ s => s

/-- Leftmost match of the strict marker regex `\[(\d+)\]`: `[`, a nonempty
digit run, `]`. Returns `(before, digits, after)`. -/
def findBare : List Char → Option (List Char × List Char × List Char)
  | [] => none
  | c :: rest =>
    if c = '[' ∧ (rest.takeWhile Char.isDigit) ≠ [] ∧
        (rest.dropWhile Char.isDigit).head? = some ']' then
      some ([], rest.takeWhile Char.isDigit, (rest.dropWhile Char.isDigit).tail)
    else
      match findBare rest with
      | some (b, m, a) => some (c :: b, m, a)
      | none => none

theorem findBare_decomp :
    ∀ {t b m a : List Char}, findBare t = some (b, m, a) →
      t = b ++ '[' :: (m ++ ']' :: a) := by
  intro t
  induction t with
  | nil => intro b m a h; simp [findBare] at h
  | cons c rest ih =>
    intro b m a h
    rw [findBare] at h
    by_cases hc : c = '[' ∧ (rest.takeWhile Char.isDigit) ≠ [] ∧
        (rest.dropWhile Char.isDigit).head? = some ']'
    · rw [if_pos hc] at h
      obtain ⟨rfl, rfl, rfl⟩ : b = [] ∧ m = rest.takeWhile Char.isDigit ∧
          a = (rest.dropWhile Char.isDigit).tail := by
        cases h; exact ⟨rfl, rfl, rfl⟩
      obtain ⟨hc1, _, hc3⟩ := hc
      subst hc1
      have hsplit := List.takeWhile_append_dropWhile (p := Char.isDigit) (l := rest)
      have hdw : rest.dropWhile Char.isDigit =
          ']' :: (rest.dropWhile Char.isDigit).tail := by
        rcases hd : rest.dropWhile Char.isDigit with _ | ⟨d, ds⟩
        · rw [hd] at hc3; cases hc3
        · rw [hd] at hc3
          simp at hc3
          simp [hc3]
      rw [hdw] at hsplit
      simpa using hsplit.symm
    · rw [if_neg hc] at h
      rcases hr : findBare rest with _ | ⟨⟨b', m', a'⟩⟩
      · rw [hr] at h; cases h
      · rw [hr] at h
        cases h
        simpa using congrArg (c :: ·) (ih hr)

theorem findBare_after_length {t b m a : List Char}
    (h : findBare t = some (b, m, a)) : a.length < t.length := by
  have := findBare_decomp h
  subst this
  simp
  omega

/-- How Query.tsx's replacer treats one strict marker: `index` is
`parseInt(digits) - 1`; in range, the marker becomes a span carrying
`citations[index].chunk_id`; out of range, the match is returned
unchanged. -/
def renderBareTok (citations : List FCitation) (ds : List Char) : QSeg :=
  let index : ℤ := (digitsToNat ds : ℤ) - 1
  if 0 ≤ index ∧ index < citations.length then
    match citations[index.toNat]? with
    | some cit => QSeg.cite index.toNat cit.chunk_id (tokenText ds)
    | none => QSeg.lit (tokenText ds)
  else
    QSeg.lit (tokenText ds)

/-- `QueryPage.renderResponseWithCitations` (Query.tsx): global replace of
the strict pattern `\[(\d+)\]`, leaving all other text as it is. -/
def renderResponseWithCitationsQT (citations : List FCitation)
    (t : List Char) : List QSeg :=
  match h : findBare t with
  | none => [QSeg.lit t]
  | some (b, ds, a) =>
    QSeg.lit b :: renderBareTok citations ds ::
      renderResponseWithCitationsQT citations a
termination_by t.length
decreasing_by exact findBare_after_length h

theorem renderQT_of_none {citations : List FCitation} {t : List Char}
    (h : findBare t = none) :
    renderResponseWithCitationsQT citations t = [QSeg.lit t] := by
  rw [renderResponseWithCitationsQT, h]

theorem renderQT_of_some {citations : List FCitation} {t b ds a : List Char}
    (h : findBare t = some (b, ds, a)) :
    renderResponseWithCitationsQT citations t =
      QSeg.lit b :: renderBareTok citations ds ::
        renderResponseWithCitationsQT citations a := by
  rw [renderResponseWithCitationsQT, h]

/-! ## CitationResolver

The CitationResolver backend implementation file is not among the sources
at hand; it is modelled from §4.5 of the specification. Marker scanning
reuses `findToken`/`capturedInt`: the spec's marker grammar
`\[\s*(?:[^\]]*)?(\d+)(?:[^\]]*)?\]` matches exactly the bracketed tokens
found by `findToken` (the optional `\s*` is subsumed by the following
`[^\]]*`), and its greedy backtracking captures the final digit character
of the token content, as for the ResponseDisplay regex. -/

/-- One entry of the `citation_index_map` produced by the
ContextAssembler: the chunk a 1-based citation index stands for, with its
retrieval similarity score. -/
structure MapEntry where
  chunk_id : String
  document_id : String
  document_title : String
  text : String
  score : ℚ
deriving DecidableEq

/-- A resolved Citation (§3 data model): `document_id`, `document_title`,
`chunk_id`, `text`, `relevance_score`. -/
structure Citation where
  document_id : String
  document_title : String
  chunk_id : String
  text : String
  relevance_score : ℚ
deriving DecidableEq

/-- The captured integers of all citation markers of the answer, in match
order. -/
def markerValues (t : List Char) : List ℕ :=
  match h : findToken t with
  | none => []
  | some (_, m, a) =>
    (match capturedInt m with
     | some v => [v]
     | none => []) ++ markerValues a
termination_by t.length
decreasing_by exact findToken_after_length h

theorem markerValues_of_none {t : List Char} (h : findToken t = none) :
    markerValues t = [] := by
  rw [markerValues, h]

theorem markerValues_of_some {t b m a : List Char}
    (h : findToken t = some (b, m, a)) :
    markerValues t =
      (match capturedInt m with
       | some v => [v]
       | none => []) ++ markerValues a := by
  rw [markerValues, h]

/-- Modelled from the spec: §4.5 — "For each match, resolve the captured
integer as a 1-based index into `citation_index_map`; indices outside
range are ignored (left as literal text, not an error)." -/
def resolvedEntries (map : List MapEntry) (t : List Char) : List MapEntry :=
  (markerValues t).filterMap (fun v => if 1 ≤ v then map[v - 1]? else none)

/-- Modelled from the spec: §4.5 — "Each distinct resolved chunk becomes
one Citation, in order of first appearance": keep the first occurrence of
each `chunk_id`. -/
def dedupByChunkId (l : List MapEntry) : List MapEntry :=
  l.foldl (fun acc e =>
    if acc.any (fun x => x.chunk_id = e.chunk_id) then acc else acc ++ [e]) []

/-- Modelled from the spec: §4.5 CitationResolver —
`resolve(answer_text, citation_index_map) → (citations, confidence)`;
`relevance_score` is the chunk's similarity score, and
"`confidence = average(relevance_score over cited chunks)` if at least one
citation resolved; if the answer contains no valid citation markers,
confidence = 0". -/
def resolve (map : List MapEntry) (answer_text : List Char) :
    List Citation × ℚ :=
  let cited := dedupByChunkId (resolvedEntries map answer_text)
  let citations := cited.map (fun e =>
    ⟨e.document_id, e.document_title, e.chunk_id, e.text, e.score⟩)
  let confidence : ℚ :=
    if cited.length = 0 then 0
    else (cited.map (·.score)).sum / cited.length
  (citations, confidence)

/-! ## Chunker

The Chunker backend implementation file is not among the sources at hand;
it is modelled from §4.1 of the specification: "slide a window of `size`
characters across `text`, advancing by `size - overlap` each step; final
chunk may be shorter than `size`. ... Empty input → empty sequence, not an
error." The hard-cut algorithm is modelled (boundary-aware splitting is an
optional quality refinement the spec allows falling back from). -/

/-- One produced chunk: its text and `start_offset`/`end_offset` in the
source text. -/
structure TextChunk where
  text : List Char
  start_offset : ℕ
  end_offset : ℕ
deriving DecidableEq

/-- Modelled from the spec: the sliding-window loop of §4.1, emitting the
window at `start` and advancing by `size - overlap` while `start` is
inside the text. The `overlap < size` guard mirrors the contract
precondition (`overlap ≥ size` is a configuration error rejected before
any work starts). -/
def chunkFrom (t : List Char) (size overlap start : ℕ) : List TextChunk :=
  if h : start < t.length ∧ overlap < size then
    ⟨(t.drop start).take size, start, min (start + size) t.length⟩
      :: chunkFrom t size overlap (start + (size - overlap))
  else []
termination_by t.length - start
decreasing_by omega

/-- Modelled from the spec: §4.1 Chunker contract
`chunk(text, size, overlap) → ordered sequence of
(text, start_offset, end_offset)`. -/
def chunk (t : List Char) (size overlap : ℕ) : List TextChunk :=
  chunkFrom t size overlap 0

theorem chunkFrom_of_lt {t : List Char} {size overlap start : ℕ}
    (h1 : start < t.length) (h2 : overlap < size) :
    chunkFrom t size overlap start =
      ⟨(t.drop start).take size, start, min (start + size) t.length⟩
        :: chunkFrom t size overlap (start + (size - overlap)) := by
  rw [chunkFrom, dif_pos ⟨h1, h2⟩]

theorem chunkFrom_of_ge {t : List Char} {size overlap start : ℕ}
    (h1 : ¬ start < t.length) :
    chunkFrom t size overlap start = [] := by
  rw [chunkFrom, dif_neg (by tauto)]

/-- Concatenation of chunk texts with the overlapping prefixes removed:
the first chunk whole, every later chunk with its first `overlap`
characters dropped. -/
def reconstruct (overlap : ℕ) : List TextChunk → List Char
  | [] => []
  | c :: rest => c.text ++ (rest.map (fun d => d.text.drop overlap)).flatten

/-! ## IngestionOrchestrator

The IngestionOrchestrator backend implementation file is not among the
sources at hand; it is modelled from §4.6 of the specification: per
document, `processing → processed` on success, `processing → error` when
any step (extraction, chunking, embedding, or index write) fails, with any
partially-written chunks rolled back (deleted) before the status is set to
`error`. -/

/-- Per-document processing status (§3 data model). -/
inductive DocStatus
  | processing
  | processed
  | error
deriving DecidableEq

/-- A chunk record as stored in the VectorIndex (the fields the atomicity
claim observes: identity and owning document). -/
structure IndexedChunk where
  chunk_id : String
  document_id : String
deriving DecidableEq

/-- The shared state the claim observes: the queryable chunk set of the
VectorIndex, and each document's status. -/
structure PipelineState where
  index : List IndexedChunk
  status : String → DocStatus

/-- The queryable chunks owned by one document. -/
def docChunks (s : PipelineState) (doc_id : String) : List IndexedChunk :=
  s.index.filter (fun c => c.document_id = doc_id)

/-- Set one document's status. -/
def setStatus (s : PipelineState) (doc_id : String) (st : DocStatus) :
    PipelineState :=
  ⟨s.index, fun d => if d = doc_id then st else s.status d⟩

/-- Upsert chunk records into the VectorIndex. -/
def upsertChunks (s : PipelineState) (cs : List IndexedChunk) : PipelineState :=
  ⟨s.index ++ cs, s.status⟩

/-- Delete every chunk owned by one document (the rollback primitive, also
used by delete-by-document). -/
def deleteDocChunks (s : PipelineState) (doc_id : String) : PipelineState :=
  ⟨s.index.filter (fun c => ¬ c.document_id = doc_id), s.status⟩

/-- Modelled from the spec: which pipeline step fails, if any, during one
ingestion run. `indexFailAfter = some j` means the backend write fails
after `j` chunk records have already been written (the partial-write
case); `none` means every write succeeds. -/
structure StepOutcomes where
  extractOk : Bool
  chunkOk : Bool
  embedOk : Bool
  indexFailAfter : Option ℕ

/-- The chunk records ingestion writes for a document:
`{document_id}_chunk_{n}` ids, one per produced chunk. -/
def chunkRecords (doc_id : String) (n : ℕ) : List IndexedChunk :=
  (List.range n).map (fun i =>
    ⟨doc_id ++ "_chunk_" ++ toString i, doc_id⟩)

/-- Modelled from the spec: §4.6 — one ingestion run for a document
producing `n` chunks. Extraction, chunking and embedding failures mark
the document `error` before anything is written; an index-write failure
first leaves the partially-written records in the index, then rolls back
every chunk of the document, and only then marks it `error`; on success
all chunks are upserted and the document is marked `processed`. -/
def ingest (doc_id : String) (n : ℕ) (oc : StepOutcomes)
    (s : PipelineState) : PipelineState :=
  let s0 := setStatus s doc_id .processing
  if oc.extractOk = false then setStatus s0 doc_id .error
  else if oc.chunkOk = false then setStatus s0 doc_id .error
  else if oc.embedOk = false then setStatus s0 doc_id .error
  else
    match oc.indexFailAfter with
    | none =>
      setStatus (upsertChunks s0 (chunkRecords doc_id n)) doc_id .processed
    | some j =>
      let written := upsertChunks s0 ((chunkRecords doc_id n).take j)
      let rolledBack := deleteDocChunks written doc_id
      setStatus rolledBack doc_id .error

/-! ## Supporting lemmas for the retrieval claims -/

theorem mem_of_mem_query_documents {res : ChromaResults} {top_k : ℕ}
    {threshold : ℚ} {c : RChunk} (h : c ∈ query_documents res top_k threshold) :
    c ∈ thresholdFiltered res threshold :=
  mem_sortByScoreDesc.mp (List.mem_of_mem_take h)

theorem exists_row_of_mem_thresholdFiltered {res : ChromaResults}
    {threshold : ℚ} {c : RChunk} (h : c ∈ thresholdFiltered res threshold) :
    ∃ rd ∈ candidateRows res, c.score = similarity_score rd.2 := by
  unfold thresholdFiltered at h
  rw [List.mem_filterMap] at h
  obtain ⟨rd, hrd, heq⟩ := h
  by_cases hle : threshold ≤ similarity_score rd.2
  · rw [if_pos hle] at heq
    cases heq
    exact ⟨rd, hrd, rfl⟩
  · rw [if_neg hle] at heq
    cases heq

/-- C1: for every backend reply, `query_documents` returns at most `top_k`
results, every returned result has similarity at least `threshold`, the
results are ordered highest similarity first, and when no candidate
reaches the threshold the result is the empty list (the function is total,
so no error is raised). -/
theorem query_documents_contract (res : ChromaResults) (top_k : ℕ)
    (threshold : ℚ) :
    (query_documents res top_k threshold).length ≤ top_k ∧
    (∀ c ∈ query_documents res top_k threshold, threshold ≤ c.score) ∧
    (query_documents res top_k threshold).Pairwise
      (fun a b => b.score ≤ a.score) ∧
    ((∀ rd ∈ candidateRows res, similarity_score rd.2 < threshold) →
      query_documents res top_k threshold = []) := by
  refine ⟨List.length_take_le .., ?_, ?_, ?_⟩
  · intro c hc
    exact score_ge_threshold_of_mem_thresholdFiltered
      (mem_of_mem_query_documents hc)
  · exact List.Pairwise.sublist (List.take_sublist ..)
      (pairwise_sortByScoreDesc _)
  · intro hall
    have hfil : thresholdFiltered res threshold = [] := by
      unfold thresholdFiltered
      rw [List.filterMap_eq_nil_iff]
      intro rd hrd
      rw [if_neg (not_le.mpr (hall rd hrd))]
    unfold query_documents
    rw [hfil]
    simp [sortByScoreDesc]

/-- First example row for witnesses: a candidate at distance `3/10`,
similarity `17/20 = 0.85`. -/
def exRow1 : QueryRow := ⟨"d1_chunk_0", "d1", "Doc One", "first passage"⟩

/-- Second example row for witnesses: a candidate at distance `1`,
similarity `1/2`. -/
def exRow2 : QueryRow := ⟨"d1_chunk_1", "d1", "Doc One", "second passage"⟩

/-- Example backend reply whose best candidate has similarity `0.85`. -/
def exResHigh : ChromaResults := ⟨[exRow1, exRow2], some [3/10, 1]⟩

/-- C1 witness: the §8 scenario — with `threshold = 0.9` against a corpus
whose best match has similarity `0.85`, `query_documents` returns the
empty sequence. -/
theorem query_documents_contract_witness :
    query_documents exResHigh 5 (9/10) = [] :=
  (query_documents_contract exResHigh 5 (9/10)).2.2.2 (by
    have hcr : candidateRows exResHigh = [(exRow1, 3/10), (exRow2, 1)] := rfl
    rw [hcr]
    intro rd hrd
    rcases List.mem_cons.mp hrd with rfl | hrd
    · norm_num [similarity_score]
    · rcases List.mem_cons.mp hrd with rfl | hrd
      · norm_num [similarity_score]
      · cases hrd)

/-- C8: `retrieve` asks the backend for `2k` candidates, and its result is
the threshold-filtered candidate list, stable-sorted by similarity
descending, truncated to `k`: every filtered entry is at or above the
threshold, the sorted list is ordered highest score first, and at every
score value the sorted list preserves the backend (first-seen) order of
the equal-score entries. -/
theorem retrieve_pipeline (backend : ℕ → ChromaResults) (top_k : ℕ)
    (threshold : ℚ) :
    retrieve backend top_k threshold =
      (sortByScoreDesc
        (thresholdFiltered (backend (2 * top_k)) threshold)).take top_k ∧
    (∀ c ∈ thresholdFiltered (backend (2 * top_k)) threshold,
      threshold ≤ c.score) ∧
    (sortByScoreDesc (thresholdFiltered (backend (2 * top_k)) threshold)).Pairwise
      (fun a b => b.score ≤ a.score) ∧
    (∀ s : ℚ,
      (sortByScoreDesc (thresholdFiltered (backend (2 * top_k)) threshold)).filter
          (fun c => decide (c.score = s)) =
        (thresholdFiltered (backend (2 * top_k)) threshold).filter
          (fun c => decide (c.score = s))) := by
  refine ⟨?_, ?_, pairwise_sortByScoreDesc _, fun s => scoreFilter_sortByScoreDesc _ s⟩
  · unfold retrieve query_documents
    rw [Nat.mul_comm]
  · intro c hc
    exact score_ge_threshold_of_mem_thresholdFiltered hc

/-- C8 witness: the pipeline shape at a concrete backend and query. -/
theorem retrieve_pipeline_witness :
    retrieve (fun _ => exResHigh) 1 (3/10) =
      (sortByScoreDesc (thresholdFiltered exResHigh (3/10))).take 1 :=
  (retrieve_pipeline (fun _ => exResHigh) 1 (3/10)).1

/-- Example reply for the C2 counterexample: one candidate whose raw
distance is `3` (as a squared Euclidean distance may be). -/
def exResFar : ChromaResults := ⟨[exRow1], some [3]⟩

/-- C2 counterexample: `query_documents` performs no clamping — at raw
distance `3` and threshold `-1` the exposed `similarity_score` is `-1/2`,
outside `[0,1]`. -/
theorem query_documents_score_unclamped :
    (query_documents exResFar 5 (-1)).map RChunk.score = [-(1/2)] ∧
    ¬ (0 ≤ (-(1/2) : ℚ)) := by
  constructor
  · have hfil : thresholdFiltered exResFar (-1) =
        [⟨"d1_chunk_0", "d1", "Doc One", "first passage", similarity_score 3⟩] := by
      unfold thresholdFiltered candidateRows exResFar exRow1
      simp only [List.zip_cons_cons, List.zip_nil_right, List.filterMap_cons,
        List.filterMap_nil]
      rw [if_pos (by norm_num [similarity_score])]
    unfold query_documents
    rw [hfil]
    simp [sortByScoreDesc, insertByScoreDesc]
    norm_num [similarity_score]
  · norm_num

/-- C2 (amended): every similarity score exposed by `query_documents`
equals `1 - d/2` for the raw distance `d` of its candidate and is at least
the threshold, but it is not clamped; whenever every candidate distance
lies in `[0,2]`, every exposed score lies in `[0,1]`. -/
theorem query_documents_score_range (res : ChromaResults) (top_k : ℕ)
    (threshold : ℚ)
    (hd : ∀ rd ∈ candidateRows res, 0 ≤ rd.2 ∧ rd.2 ≤ 2) :
    (∀ d : ℚ, similarity_score d = 1 - d / 2) ∧
    ∀ c ∈ query_documents res top_k threshold,
      threshold ≤ c.score ∧ 0 ≤ c.score ∧ c.score ≤ 1 := by
  refine ⟨fun d => rfl, ?_⟩
  intro c hc
  have hmem := mem_of_mem_query_documents hc
  obtain ⟨rd, hrd, hsc⟩ := exists_row_of_mem_thresholdFiltered hmem
  obtain ⟨h0, h2⟩ := hd rd hrd
  refine ⟨score_ge_threshold_of_mem_thresholdFiltered hmem, ?_, ?_⟩
  · rw [hsc]
    unfold similarity_score
    linarith
  · rw [hsc]
    unfold similarity_score
    linarith

/-- C2 (amended) witness: at a concrete reply with distances inside
`[0,2]`, the exposed score of the best result lies in `[0,1]`. -/
theorem query_documents_score_range_witness :
    (3/10 : ℚ) ≤ similarity_score (3/10) ∧
    0 ≤ similarity_score (3/10) ∧ similarity_score (3/10) ≤ 1 := by
  have h := (query_documents_score_range exResHigh 5 (3/10) (by
    have hcr : candidateRows exResHigh = [(exRow1, 3/10), (exRow2, 1)] := rfl
    rw [hcr]
    intro rd hrd
    rcases List.mem_cons.mp hrd with rfl | hrd
    · norm_num
    · rcases List.mem_cons.mp hrd with rfl | hrd
      · norm_num
      · cases hrd)).2
  have hfil : thresholdFiltered exResHigh (3/10) =
      [⟨"d1_chunk_0", "d1", "Doc One", "first passage", similarity_score (3/10)⟩,
       ⟨"d1_chunk_1", "d1", "Doc One", "second passage", similarity_score 1⟩] := by
    unfold thresholdFiltered candidateRows exResHigh exRow1 exRow2
    simp only [List.zip_cons_cons, List.zip_nil_right, List.filterMap_cons,
      List.filterMap_nil]
    rw [if_pos (by norm_num [similarity_score]),
      if_pos (by norm_num [similarity_score])]
  have hmem : (⟨"d1_chunk_0", "d1", "Doc One", "first passage",
      similarity_score (3/10)⟩ : RChunk) ∈
      query_documents exResHigh 5 (3/10) := by
    unfold query_documents
    rw [hfil]
    simp only [sortByScoreDesc, insertByScoreDesc]
    rw [if_pos (by norm_num [similarity_score])]
    simp
  simpa using h _ hmem

/-- Example reply without a `"distances"` key. -/
def exResNoDist : ChromaResults := ⟨[exRow1, exRow2], none⟩

/-- C10: when the backend reply has no `"distances"` key the code uses the
default distance `0.5`, so every candidate is scored exactly
`1 - 0.5/2 = 0.75`, and for any threshold at most `0.75` (the default
`0.3` included) every candidate passes the threshold filter regardless of
its actual relevance. -/
theorem query_documents_default_distance (res : ChromaResults) (top_k : ℕ)
    (threshold : ℚ) (hnone : res.distances = none)
    (hθ : threshold ≤ 3/4) :
    thresholdFiltered res threshold =
      res.rows.map (fun r =>
        ⟨r.chunk_id, r.document_id, r.document_title, r.text, 3/4⟩) ∧
    ∀ c ∈ query_documents res top_k threshold, c.score = 3/4 := by
  have h34 : similarity_score (1/2) = 3/4 := by
    unfold similarity_score
    norm_num
  have hfil : thresholdFiltered res threshold =
      res.rows.map (fun r =>
        ⟨r.chunk_id, r.document_id, r.document_title, r.text, 3/4⟩) := by
    unfold thresholdFiltered candidateRows
    rw [hnone, List.filterMap_map]
    rw [List.filterMap_eq_map_iff_forall_eq_some.mpr]
    intro r _
    simp only [Function.comp_apply, h34, if_pos hθ]
  refine ⟨hfil, ?_⟩
  intro c hc
  have := mem_of_mem_query_documents hc
  rw [hfil] at this
  obtain ⟨r, _, hr⟩ := List.mem_map.mp this
  rw [← hr]

/-- C10 witness: a concrete reply without distances, queried at the
default threshold `0.3` — every candidate enters the filtered list with
score exactly `3/4`. -/
theorem query_documents_default_distance_witness :
    thresholdFiltered exResNoDist (3/10) =
      exResNoDist.rows.map (fun r =>
        ⟨r.chunk_id, r.document_id, r.document_title, r.text, 3/4⟩) :=
  (query_documents_default_distance exResNoDist 5 (3/10) rfl
    (by norm_num)).1

/-! ## Supporting lemmas for the citation-rendering claims -/

theorem RSeg_text_lit (s : List Char) : (RSeg.lit s).text = s := rfl

theorem RSeg_text_cite (i : ℕ) (s : List Char) : (RSeg.cite i s).text = s := rfl

theorem findToken_nil : findToken [] = none := rfl

theorem renderTokenRD_text (citations : List FCitation) (m : List Char) :
    (renderTokenRD citations m).text = tokenText m := by
  unfold renderTokenRD
  rcases hc : capturedInt m with _ | v
  · rfl
  · dsimp only
    split
    · rfl
    · rfl

theorem renderTokenRD_in_range (citations : List FCitation) {m : List Char}
    {v : ℕ} (hv : capturedInt m = some v) (h1 : 1 ≤ v)
    (h2 : v ≤ citations.length) :
    renderTokenRD citations m = RSeg.cite (v - 1) (tokenText m) := by
  unfold renderTokenRD
  rw [hv]
  dsimp only
  rw [if_pos (by omega)]
  congr 1
  omega

theorem renderTokenRD_out_of_range (citations : List FCitation) {m : List Char}
    {v : ℕ} (hv : capturedInt m = some v)
    (hout : ¬ (1 ≤ v ∧ v ≤ citations.length)) :
    renderTokenRD citations m = RSeg.lit (tokenText m) := by
  unfold renderTokenRD
  rw [hv]
  dsimp only
  rw [if_neg (by omega)]

theorem renderTokenRD_cite_bound {citations : List FCitation} {m : List Char}
    {i : ℕ} {s : List Char}
    (h : renderTokenRD citations m = RSeg.cite i s) : i < citations.length := by
  unfold renderTokenRD at h
  rcases hc : capturedInt m with _ | v
  · rw [hc] at h
    cases h
  · rw [hc] at h
    dsimp only at h
    by_cases hcond : 0 ≤ (v : ℤ) - 1 ∧ (v : ℤ) - 1 < citations.length
    · rw [if_pos hcond] at h
      cases h
      omega
    · rw [if_neg hcond] at h
      cases h

theorem renderRD_flatten_text (citations : List FCitation) :
    ∀ (fuel : ℕ) (t : List Char), t.length ≤ fuel →
      ((renderResponseWithCitationsRD citations t).map RSeg.text).flatten = t := by
  intro fuel
  induction fuel with
  | zero =>
    intro t ht
    have hnil : t = [] := List.eq_nil_of_length_eq_zero (Nat.le_zero.mp ht)
    subst hnil
    rw [renderRD_of_none findToken_nil]
    simp [RSeg_text_lit]
  | succ fuel ih =>
    intro t ht
    rcases hf : findToken t with _ | ⟨b, m, a⟩
    · rw [renderRD_of_none hf]
      simp [RSeg_text_lit]
    · have hdec := findToken_decomp hf
      have hlen : a.length ≤ fuel := by
        have := findToken_after_length hf
        omega
      rw [renderRD_of_some hf]
      simp only [List.map_cons, List.flatten_cons, RSeg_text_lit,
        renderTokenRD_text, ih a hlen]
      rw [hdec]
      simp [tokenText]

theorem renderRD_cite_bound_all (citations : List FCitation) :
    ∀ (fuel : ℕ) (t : List Char), t.length ≤ fuel →
      ∀ i s, RSeg.cite i s ∈ renderResponseWithCitationsRD citations t →
        i < citations.length := by
  intro fuel
  induction fuel with
  | zero =>
    intro t ht i s hmem
    have hnil : t = [] := List.eq_nil_of_length_eq_zero (Nat.le_zero.mp ht)
    subst hnil
    rw [renderRD_of_none findToken_nil] at hmem
    simp at hmem
  | succ fuel ih =>
    intro t ht i s hmem
    rcases hf : findToken t with _ | ⟨b, m, a⟩
    · rw [renderRD_of_none hf] at hmem
      simp at hmem
    · rw [renderRD_of_some hf] at hmem
      rcases List.mem_cons.mp hmem with h1 | hmem

      · simp at h1
      · rcases List.mem_cons.mp hmem with h2 | h3
        · exact renderTokenRD_cite_bound h2.symm
        · have hlen : a.length ≤ fuel := by
            have := findToken_after_length hf
            omega
          exact ih a hlen i s h3

theorem tokenScan_stop (l r : List Char) (h : ∀ c ∈ l, c ≠ ']') :
    (l ++ ']' :: r).takeWhile (· ≠ ']') = l ∧
    (l ++ ']' :: r).dropWhile (· ≠ ']') = ']' :: r := by
  induction l with
  | nil =>
    constructor
    · rw [List.nil_append, List.takeWhile_cons]
      simp
    · rw [List.nil_append, List.dropWhile_cons]
      simp
  | cons c cs ih =>
    have hc : c ≠ ']' := h c (by simp)
    obtain ⟨ih1, ih2⟩ := ih (fun x hx => h x (by simp [hx]))
    constructor
    · rw [List.cons_append, List.takeWhile_cons, if_pos (by simp [hc])]
      rw [ih1]
    · rw [List.cons_append, List.dropWhile_cons, if_pos (by simp [hc])]
      exact ih2

theorem findToken_tokenText (q : List Char) (hq : ∀ c ∈ q, c ≠ ']')
    (hdig : q.any Char.isDigit) :
    findToken (tokenText q) = some ([], q, []) := by
  obtain ⟨htw, hdw⟩ := tokenScan_stop q [] hq
  unfold tokenText
  rw [findToken]
  rw [if_pos]
  · rw [htw, hdw]
    rfl
  · refine ⟨rfl, ?_, ?_⟩
    · rw [hdw]
      simp
    · rw [htw]
      exact hdig

theorem capturedInt_append_digit (p : List Char) (d : Char)
    (hd : d.isDigit) :
    capturedInt (p ++ [d]) = some (d.toNat - 48) := by
  unfold capturedInt
  rw [List.reverse_append]
  simp [List.find?_cons_of_pos, hd]

theorem renderRD_single_token (citations : List FCitation) (q : List Char)
    (hq : ∀ c ∈ q, c ≠ ']') (hdig : q.any Char.isDigit)
    {v : ℕ} (hv : capturedInt q = some v)
    (h1 : 1 ≤ v) (h2 : v ≤ citations.length) :
    renderResponseWithCitationsRD citations (tokenText q) =
      [RSeg.lit [], RSeg.cite (v - 1) (tokenText q), RSeg.lit []] := by
  rw [renderRD_of_some (findToken_tokenText q hq hdig)]
  rw [renderRD_of_none findToken_nil]
  rw [renderTokenRD_in_range citations hv h1 h2]

/-- C5: in the ResponseDisplay renderer, rendering always reproduces the
full answer text (markers are kept in the output, and the renderer is a
total function, so resolution never raises); every clickable citation
segment points inside the citation list; a token whose captured integer is
outside the 1-based range of the citation list is rendered as literal,
inert text; and the Query.tsx replacer likewise leaves an out-of-range
bare marker as literal text. -/
theorem renderRD_out_of_range_inert (citations : List FCitation)
    (t : List Char) :
    ((renderResponseWithCitationsRD citations t).map RSeg.text).flatten = t ∧
    (∀ i s, RSeg.cite i s ∈ renderResponseWithCitationsRD citations t →
      i < citations.length) ∧
    (∀ (m : List Char) (v : ℕ), capturedInt m = some v →
      ¬ (1 ≤ v ∧ v ≤ citations.length) →
      renderTokenRD citations m = RSeg.lit (tokenText m)) ∧
    (∀ ds : List Char,
      ¬ (1 ≤ digitsToNat ds ∧ digitsToNat ds ≤ citations.length) →
      renderBareTok citations ds = QSeg.lit (tokenText ds)) :=
  ⟨renderRD_flatten_text citations t.length t le_rfl,
   renderRD_cite_bound_all citations t.length t le_rfl,
   fun _ _ hv hout => renderTokenRD_out_of_range citations hv hout,
   fun ds hout => by
     unfold renderBareTok
     dsimp only
     rw [if_neg (by omega)]⟩

/-- Example frontend citation list with a single entry. -/
def exCitation : FCitation := ⟨"c1", "Doc One", "first passage"⟩

/-- C5 witness: against a single-citation list, the marker `[2]` captures
`2`, which is out of range, and its token is rendered as literal text. -/
theorem renderRD_out_of_range_inert_witness :
    renderTokenRD [exCitation] (String.toList "2") =
      RSeg.lit (tokenText (String.toList "2")) :=
  (renderRD_out_of_range_inert [exCitation] (String.toList "see [2]")).2.2.1
    (String.toList "2") 2 (by decide) (by decide)

/-- C4 counterexample: the Query.tsx renderer's pattern `\[(\d+)\]` does
not accept decorated markers — on the answer `[Source 1]` with a one-entry
citation list it recognizes nothing and leaves the whole text literal,
while the bare `[1]` is recognized; so citation-marker recognition in
Query.tsx does not accept every bracketed token containing an integer. -/
theorem queryTsx_decorated_not_recognized :
    renderResponseWithCitationsQT [exCitation] (String.toList "[Source 1]") =
      [QSeg.lit (String.toList "[Source 1]")] ∧
    renderResponseWithCitationsQT [exCitation] (String.toList "[1]") =
      [QSeg.lit [], QSeg.cite 0 "c1" (tokenText ['1']), QSeg.lit []] := by
  constructor
  · rw [renderQT_of_none (by decide)]
  · rw [renderQT_of_some
      (show findBare (String.toList "[1]") = some ([], ['1'], []) by decide)]
    rw [renderQT_of_none (by decide)]
    rfl

/-- C4 (amended): in the ResponseDisplay renderer (and in the resolver
grammar it shares), any bracketed token containing at least one integer is
recognized: a decorated marker `[<decoration><digit>]` whose decoration
contains no `]` and a bare marker `[<digit>]` are both recognized and
resolved to the same 1-based index — the captured digit — into the
citation list. The Query.tsx renderer, by contrast, only recognizes bare
markers (see the counterexample). -/
theorem responseDisplay_marker_recognition (citations : List FCitation)
    (p : List Char) (d : Char) (hp : ∀ c ∈ p, c ≠ ']') (hd : d.isDigit)
    (h1 : 1 ≤ d.toNat - 48) (h2 : d.toNat - 48 ≤ citations.length) :
    renderResponseWithCitationsRD citations (tokenText (p ++ [d])) =
      [RSeg.lit [], RSeg.cite (d.toNat - 48 - 1) (tokenText (p ++ [d])),
        RSeg.lit []] ∧
    renderResponseWithCitationsRD citations (tokenText [d]) =
      [RSeg.lit [], RSeg.cite (d.toNat - 48 - 1) (tokenText [d]),
        RSeg.lit []] := by
  have hdne : d ≠ ']' := by
    intro heq
    rw [heq] at hd
    exact absurd hd (by decide)
  constructor
  · refine renderRD_single_token citations (p ++ [d]) ?_ ?_
      (capturedInt_append_digit p d hd) h1 h2
    · intro c hc
      rcases List.mem_append.mp hc with hcp | hcd
      · exact hp c hcp
      · rw [List.mem_singleton.mp hcd]
        exact hdne
    · exact List.any_eq_true.mpr ⟨d, by simp, hd⟩
  · refine renderRD_single_token citations [d] ?_ ?_
      (capturedInt_append_digit [] d hd) h1 h2
    · intro c hc
      rw [List.mem_singleton.mp hc]
      exact hdne
    · exact List.any_eq_true.mpr ⟨d, by simp, hd⟩

/-- C4 (amended) witness: with a one-entry citation list, `[Source 1]` and
`[1]` are both recognized by the ResponseDisplay renderer and resolve to
citation index 0. -/
theorem responseDisplay_marker_recognition_witness :
    renderResponseWithCitationsRD [exCitation]
        (tokenText (String.toList "Source " ++ ['1'])) =
      [RSeg.lit [], RSeg.cite 0 (tokenText (String.toList "Source " ++ ['1'])),
        RSeg.lit []] ∧
    renderResponseWithCitationsRD [exCitation] (tokenText ['1']) =
      [RSeg.lit [], RSeg.cite 0 (tokenText ['1']), RSeg.lit []] :=
  responseDisplay_marker_recognition [exCitation]
    (String.toList "Source ") '1' (by decide) (by decide) (by decide) (by decide)

/-! ## Supporting lemmas for the CitationResolver claim -/

theorem dedup_foldl_pairwise :
    ∀ (l acc : List MapEntry),
      acc.Pairwise (fun a b => a.chunk_id ≠ b.chunk_id) →
      (l.foldl (fun acc e =>
        if acc.any (fun x => x.chunk_id = e.chunk_id) then acc
        else acc ++ [e]) acc).Pairwise
          (fun a b => a.chunk_id ≠ b.chunk_id) := by
  intro l
  induction l with
  | nil => intro acc h; exact h
  | cons e es ih =>
    intro acc h
    rw [List.foldl_cons]
    by_cases hc : acc.any (fun x => x.chunk_id = e.chunk_id)
    · rw [if_pos hc]
      exact ih acc h
    · rw [if_neg hc]
      apply ih
      rw [List.pairwise_append]
      refine ⟨h, List.pairwise_singleton .., ?_⟩
      intro a ha b hb
      rw [List.mem_singleton.mp hb]
      simp only [List.any_eq_true, not_exists, not_and] at hc
      simpa using hc a ha

/-- C3: `resolve` returns confidence 0 and an empty citation list when no
citation marker of the answer resolves; the cited chunks are distinct; the
confidence is the average relevance score of the distinct cited chunks
whenever at least one marker resolved; and on an answer containing `[1]`
and `[2]` against a map holding only index 1, exactly one Citation is
produced and the confidence equals that chunk's relevance score. -/
theorem resolve_confidence_rule (map : List MapEntry) (answer_text : List Char) :
    (resolvedEntries map answer_text = [] →
      resolve map answer_text = ([], 0)) ∧
    (resolve map answer_text).1.Pairwise
      (fun a b => a.chunk_id ≠ b.chunk_id) ∧
    ((resolve map answer_text).1 ≠ [] →
      (resolve map answer_text).2 =
        ((resolve map answer_text).1.map
          (fun c => c.relevance_score)).sum /
          (resolve map answer_text).1.length) ∧
    (∀ e : MapEntry, resolve [e] (String.toList "x [1] y [2].") =
      ([⟨e.document_id, e.document_title, e.chunk_id, e.text, e.score⟩],
        e.score)) := by
  refine ⟨?_, ?_, ?_, ?_⟩
  · intro h
    simp [resolve, h, dedupByChunkId]
  · have hd := dedup_foldl_pairwise (resolvedEntries map answer_text) []
      (by simp)
    unfold resolve
    dsimp only
    rw [List.pairwise_map]
    exact hd
  · intro hne
    unfold resolve at hne ⊢
    dsimp only at hne ⊢
    have hlen : ¬ (dedupByChunkId (resolvedEntries map answer_text)).length = 0 := by
      intro h0
      rw [List.length_eq_zero] at h0
      rw [h0] at hne
      simp at hne
    rw [if_neg hlen]
    rw [List.map_map, List.length_map]
    rfl
  · intro e
    have h3 : markerValues (String.toList ".") = [] :=
      markerValues_of_none (by decide)
    have h2 : markerValues (String.toList " y [2].") = [2] := by
      rw [markerValues_of_some (show findToken (String.toList " y [2].") =
          some (String.toList " y ", ['2'], String.toList ".") from by decide),
        h3]
      simp [show capturedInt ['2'] = some 2 from by decide]
    have hm : markerValues (String.toList "x [1] y [2].") = [1, 2] := by
      rw [markerValues_of_some (show findToken (String.toList "x [1] y [2].") =
          some (String.toList "x ", ['1'], String.toList " y [2].") from by decide),
        h2]
      simp [show capturedInt ['1'] = some 1 from by decide]
    have hres : resolvedEntries [e] (String.toList "x [1] y [2].") = [e] := by
      unfold resolvedEntries
      rw [hm]
      simp
    unfold resolve
    rw [hres]
    simp [dedupByChunkId]

/-- Example citation-map entry for the C3 witness. -/
def exEntry : MapEntry := ⟨"c1", "d1", "Doc One", "first passage", 3/4⟩

/-- C3 witness: a marker-free answer resolves to no citations with
confidence 0, and the `[1]`/`[2]` scenario against a one-entry map yields
that entry's Citation with its relevance score as confidence. -/
theorem resolve_confidence_rule_witness :
    resolve [] (String.toList "no markers at all") = ([], 0) ∧
    resolve [exEntry] (String.toList "x [1] y [2].") =
      ([⟨"d1", "Doc One", "c1", "first passage", 3/4⟩], 3/4) := by
  constructor
  · exact (resolve_confidence_rule [] (String.toList "no markers at all")).1 (by
      unfold resolvedEntries
      rw [markerValues_of_none (by decide)]
      rfl)
  · exact (resolve_confidence_rule [exEntry]
      (String.toList "x [1] y [2].")).2.2.2 exEntry

/-! ## Supporting lemmas for the Chunker claims -/

theorem chunkFrom_getElem (t : List Char) (size overlap : ℕ)
    (h2 : overlap < size) :
    ∀ (i start : ℕ),
      (chunkFrom t size overlap start)[i]? =
        if start + i * (size - overlap) < t.length then
          some ⟨(t.drop (start + i * (size - overlap))).take size,
                start + i * (size - overlap),
                min (start + i * (size - overlap) + size) t.length⟩
        else none := by
  intro i
  induction i with
  | zero =>
    intro start
    by_cases h1 : start < t.length
    · rw [chunkFrom_of_lt h1 h2]
      simp [h1]
    · rw [chunkFrom_of_ge h1]
      simp [h1]
  | succ i ih =>
    intro start
    by_cases h1 : start < t.length
    · rw [chunkFrom_of_lt h1 h2]
      rw [List.getElem?_cons_succ]
      rw [ih (start + (size - overlap))]
      have harith : start + (size - overlap) + i * (size - overlap) =
          start + (i + 1) * (size - overlap) := by ring
      rw [harith]
    · rw [chunkFrom_of_ge h1]
      rw [if_neg (by omega)]
      simp

/-- C6: `chunk` slides a window of `size` characters advancing by
`size - overlap` per step — the `i`-th chunk starts at offset
`i * (size - overlap)`, covers `size` characters (the final chunk possibly
fewer), and there is a chunk exactly for every such offset inside the
text; in particular a 2400-character document with `chunk_size = 1000` and
`overlap = 200` yields exactly 3 chunks with offsets `[0, 1000)`,
`[800, 1800)` and `[1600, 2400)`. -/
theorem chunk_sliding_window (t : List Char) (size overlap : ℕ)
    (h1 : 0 < size) (h2 : overlap < size) :
    (∀ i : ℕ,
      (chunk t size overlap)[i]? =
        if i * (size - overlap) < t.length then
          some ⟨(t.drop (i * (size - overlap))).take size,
                i * (size - overlap),
                min (i * (size - overlap) + size) t.length⟩
        else none) ∧
    (t.length = 2400 → size = 1000 → overlap = 200 →
      (chunk t size overlap).map (fun c => (c.start_offset, c.end_offset)) =
        [(0, 1000), (800, 1800), (1600, 2400)]) := by
  constructor
  · intro i
    have h := chunkFrom_getElem t size overlap h2 i 0
    simpa using h
  · intro ht hs ho
    subst hs
    subst ho
    apply List.ext_getElem?
    intro i
    rw [List.getElem?_map]
    unfold chunk
    rw [chunkFrom_getElem t 1000 200 (by norm_num) i 0]
    rw [ht]
    match i with
    | 0 =>
      rw [if_pos (by norm_num)]
      rfl
    | 1 =>
      rw [if_pos (by norm_num)]
      rfl
    | 2 =>
      rw [if_pos (by norm_num)]
      rfl
    | (i + 3) =>
      rw [if_neg (by omega)]
      simp

/-- C6 witness: the §8 scenario at a concrete 2400-character document. -/
theorem chunk_sliding_window_witness :
    (chunk (List.replicate 2400 'a') 1000 200).map
        (fun c => (c.start_offset, c.end_offset)) =
      [(0, 1000), (800, 1800), (1600, 2400)] :=
  (chunk_sliding_window (List.replicate 2400 'a') 1000 200 (by norm_num)
    (by norm_num)).2 (List.length_replicate ..) rfl rfl

theorem reconstruct_nil (overlap : ℕ) : reconstruct overlap [] = [] := rfl

theorem reconstruct_cons (overlap : ℕ) (c : TextChunk) (rest : List TextChunk) :
    reconstruct overlap (c :: rest) =
      c.text ++ (rest.map (fun d => d.text.drop overlap)).flatten := rfl

theorem chunkFrom_drop_flatten (t : List Char) (size overlap : ℕ)
    (h2 : overlap < size) :
    ∀ start : ℕ,
      ((chunkFrom t size overlap start).map
        (fun c => c.text.drop overlap)).flatten = t.drop (start + overlap) := by
  suffices hfuel : ∀ (fuel start : ℕ), t.length - start ≤ fuel →
      ((chunkFrom t size overlap start).map
        (fun c => c.text.drop overlap)).flatten = t.drop (start + overlap) by
    intro start
    exact hfuel (t.length - start) start le_rfl
  intro fuel
  induction fuel with
  | zero =>
    intro start h0
    rw [chunkFrom_of_ge (by omega)]
    simp only [List.map_nil, List.flatten_nil]
    rw [List.drop_eq_nil_of_le (by omega)]
  | succ fuel ih =>
    intro start hle
    by_cases h1 : start < t.length
    · rw [chunkFrom_of_lt h1 h2]
      simp only [List.map_cons, List.flatten_cons]
      rw [ih (start + (size - overlap)) (by omega)]
      have hu : t.drop (start + overlap) = (t.drop start).drop overlap := by
        rw [List.drop_drop]
        try congr 1
        try omega
      have hv : t.drop (start + (size - overlap) + overlap) =
          ((t.drop start).drop overlap).drop (size - overlap) := by
        rw [List.drop_drop, List.drop_drop]
        try congr 1
        try omega
      rw [hu, hv, List.drop_take]
      exact List.take_append_drop ..
    · rw [chunkFrom_of_ge h1]
      simp only [List.map_nil, List.flatten_nil]
      rw [List.drop_eq_nil_of_le (by omega)]

/-- C7: for every text and every `0 ≤ overlap < size`, concatenating the
chunk texts with the overlapping prefixes removed (the first chunk whole,
each later chunk without its first `overlap` characters) reconstructs the
text exactly. -/
theorem chunk_reconstruct (t : List Char) (size overlap : ℕ)
    (h1 : 0 < size) (h2 : overlap < size) :
    reconstruct overlap (chunk t size overlap) = t := by
  unfold chunk
  by_cases h0 : 0 < t.length
  · rw [chunkFrom_of_lt h0 h2]
    rw [reconstruct_cons]
    rw [chunkFrom_drop_flatten t size overlap h2 (0 + (size - overlap))]
    have e : 0 + (size - overlap) + overlap = size := by omega
    rw [e]
    dsimp only
    rw [List.drop_zero]
    exact List.take_append_drop ..
  · rw [chunkFrom_of_ge (by omega)]
    have hnil : t = [] := by
      cases t with
      | nil => rfl
      | cons c cs => simp at h0
    subst hnil
    rfl

/-- C7 witness: round-trip at a concrete text, window 4, overlap 1. -/
theorem chunk_reconstruct_witness :
    reconstruct 1 (chunk (String.toList "hello world") 4 1) =
      String.toList "hello world" :=
  chunk_reconstruct (String.toList "hello world") 4 1 (by norm_num)
    (by norm_num)

/-! ## Supporting lemmas for the ingestion-atomicity claim -/

theorem docChunks_setStatus (s : PipelineState) (d d2 : String)
    (st : DocStatus) : docChunks (setStatus s d st) d2 = docChunks s d2 := rfl

theorem status_setStatus (s : PipelineState) (d : String) (st : DocStatus) :
    (setStatus s d st).status d = st := by
  simp [setStatus]

theorem docChunks_deleteDocChunks (s : PipelineState) (d : String) :
    docChunks (deleteDocChunks s d) d = [] := by
  unfold docChunks deleteDocChunks
  dsimp only
  rw [List.filter_filter]
  rw [List.filter_eq_nil_iff]
  intro a _
  by_cases h : a.document_id = d <;> simp [h]

theorem docChunks_upsertChunks (s : PipelineState) (d : String)
    (cs : List IndexedChunk) (hcs : ∀ c ∈ cs, c.document_id = d) :
    docChunks (upsertChunks s cs) d = docChunks s d ++ cs := by
  unfold docChunks upsertChunks
  dsimp only
  rw [List.filter_append]
  congr 1
  rw [List.filter_eq_self]
  intro a ha
  simp [hcs a ha]

theorem chunkRecords_document_id (d : String) (n : ℕ) :
    ∀ c ∈ chunkRecords d n, c.document_id = d := by
  intro c hc
  unfold chunkRecords at hc
  obtain ⟨i, _, rfl⟩ := List.mem_map.mp hc
  rfl

/-- C9: one ingestion run is atomic with respect to the queryable chunk
set — starting from a state holding no chunks of the document, either the
run succeeds, the document ends `processed` and exactly all of its chunk
records are queryable, or some step fails, the document ends `error` and
none of its chunks are queryable (an index-write failure rolls the partial
write back before the status is set). -/
theorem ingest_atomic (doc_id : String) (n : ℕ) (oc : StepOutcomes)
    (s : PipelineState) (hclean : docChunks s doc_id = []) :
    ((ingest doc_id n oc s).status doc_id = DocStatus.processed ∧
      docChunks (ingest doc_id n oc s) doc_id = chunkRecords doc_id n) ∨
    ((ingest doc_id n oc s).status doc_id = DocStatus.error ∧
      docChunks (ingest doc_id n oc s) doc_id = []) := by
  obtain ⟨eo, co, em, io⟩ := oc
  unfold ingest
  dsimp only
  by_cases he : eo = false
  · rw [if_pos he]
    right
    exact ⟨status_setStatus .., by
      rw [docChunks_setStatus, docChunks_setStatus]
      exact hclean⟩
  · rw [if_neg he]
    by_cases hc : co = false
    · rw [if_pos hc]
      right
      exact ⟨status_setStatus .., by
        rw [docChunks_setStatus, docChunks_setStatus]
        exact hclean⟩
    · rw [if_neg hc]
      by_cases hm : em = false
      · rw [if_pos hm]
        right
        exact ⟨status_setStatus .., by
          rw [docChunks_setStatus, docChunks_setStatus]
          exact hclean⟩
      · rw [if_neg hm]
        rcases io with _ | j
        · left
          refine ⟨status_setStatus .., ?_⟩
          rw [docChunks_setStatus,
            docChunks_upsertChunks _ _ _ (chunkRecords_document_id doc_id n),
            docChunks_setStatus, hclean, List.nil_append]
        · right
          refine ⟨status_setStatus .., ?_⟩
          rw [docChunks_setStatus]
          exact docChunks_deleteDocChunks ..

/-- Example pipeline state with an empty index. -/
def exState : PipelineState := ⟨[], fun _ => DocStatus.processing⟩

/-- C9 witness: an index-write failure after 1 of 2 chunks leaves the
document in `error` with no queryable chunks (or, per the disjunction,
would have ended `processed` with all chunks). -/
theorem ingest_atomic_witness :
    ((ingest "d1" 2 ⟨true, true, true, some 1⟩ exState).status "d1" =
        DocStatus.processed ∧
      docChunks (ingest "d1" 2 ⟨true, true, true, some 1⟩ exState) "d1" =
        chunkRecords "d1" 2) ∨
    ((ingest "d1" 2 ⟨true, true, true, some 1⟩ exState).status "d1" =
        DocStatus.error ∧
      docChunks (ingest "d1" 2 ⟨true, true, true, some 1⟩ exState) "d1" = []) :=
  ingest_atomic "d1" 2 ⟨true, true, true, some 1⟩ exState rfl

end RagPipeline
